import Mathlib

/-!
# Verification of the b3 collision core

Shallow embedding of the `b3` collision subsystem: the relocatable
`CGtPolygonSoup` fix-up step (from `src/src/b3/CGtPolygonSoup.cpp`) and the
`CGtCollisionKDTree` spatial queries.  The four KD-tree entry points are
only declared in the repository (`INCLUDE_ASM` stubs in
`src/src/b3/CGtCollisionKDTree.cpp`); their behaviour is modelled from the
specification, as flagged on each such definition.

Machine pointers on the target (a 32-bit MIPS console) are 32-bit unsigned
integers; pointer arithmetic is modelled as natural numbers reduced mod 2^32.
Geometry for the spec-modelled queries uses exact rational coordinates.
-/

namespace B3

/-- Reduction of a natural number to a 32-bit unsigned machine word, as
performed by the `(uint32_t)` casts in the source. -/
def u32 (n : Nat) : Nat := n % 2 ^ 32

/-- State of a `CGtPolygonSoup` object.  The visible source
(`CGtPolygonSoup.cpp` and the decompiled body `a1[0] += (int32_t)a1;
a1[1] += (int32_t)a1;`) touches exactly two 32-bit words of the object:
`m_pMember1` and `m_pMember2`.  `base` is the object's own address
(`(uint32_t)this`).  The class header is not part of the sampled sources;
`payload` stands for the remaining contents of the contiguous relocatable
block (vertex/index/attribute data per the spec), which the function body
never references. -/
structure CGtPolygonSoup where
  base : Nat
  m_pMember1 : Nat
  m_pMember2 : Nat
  payload : List Nat

/-- A machine-representable soup state: the object lives at a valid (nonzero)
32-bit address and both stored words are 32-bit values. -/
def CGtPolygonSoup.WF (s : CGtPolygonSoup) : Prop :=
  0 < s.base ∧ s.base < 2 ^ 32 ∧ s.m_pMember1 < 2 ^ 32 ∧ s.m_pMember2 < 2 ^ 32

instance (s : CGtPolygonSoup) : Decidable s.WF := by
  unfold CGtPolygonSoup.WF; infer_instance

/-- `CGtPolygonSoup::FixUp` from `src/src/b3/CGtPolygonSoup.cpp`:
each of the two stored words is replaced by the 32-bit sum of the object's
own address and the word's previous value.  `m_pMember1` is written first;
`m_pMember2`'s new value is computed from `m_pMember2`'s old value and the
(unchanged) object address. -/
def CGtPolygonSoup.FixUp (s : CGtPolygonSoup) : CGtPolygonSoup :=
  { s with
    m_pMember1 := u32 (s.base + s.m_pMember1)
    m_pMember2 := u32 (s.base + s.m_pMember2) }

/-- **C1.** One call to `FixUp` converts each stored base-relative offset
into the target address, by adding the object's own base address to the
stored integer offset, in place (stated where the 32-bit sum does not
overflow, so "adding" is exact addition). -/
theorem fixup_adds_base_once (s : CGtPolygonSoup)
    (h1 : s.base + s.m_pMember1 < 2 ^ 32)
    (h2 : s.base + s.m_pMember2 < 2 ^ 32) :
    (s.FixUp).m_pMember1 = s.base + s.m_pMember1 ∧
    (s.FixUp).m_pMember2 = s.base + s.m_pMember2 := by
  simp only [CGtPolygonSoup.FixUp, u32]
  omega

/-- Witness for C1 at a concrete soup. -/
theorem fixup_adds_base_once_witness :
    (CGtPolygonSoup.FixUp ⟨4096, 64, 128, [7]⟩).m_pMember1 = 4096 + 64 ∧
    (CGtPolygonSoup.FixUp ⟨4096, 64, 128, [7]⟩).m_pMember2 = 4096 + 128 :=
  fixup_adds_base_once ⟨4096, 64, 128, [7]⟩ (by decide) (by decide)

/-- **C7.** `FixUp` is not idempotent: on any machine-representable soup a
second call adds an extra copy of the base address to each field, so both
fields after two calls differ from their values after one call. -/
theorem fixup_not_idempotent (s : CGtPolygonSoup) (hwf : s.WF) :
    (s.FixUp.FixUp).m_pMember1 = u32 (s.FixUp.m_pMember1 + s.base) ∧
    (s.FixUp.FixUp).m_pMember2 = u32 (s.FixUp.m_pMember2 + s.base) ∧
    (s.FixUp.FixUp).m_pMember1 ≠ s.FixUp.m_pMember1 ∧
    (s.FixUp.FixUp).m_pMember2 ≠ s.FixUp.m_pMember2 := by
  obtain ⟨hpos, hlt, _, _⟩ := hwf
  unfold CGtPolygonSoup.FixUp u32 at *
  refine ⟨by simp [Nat.add_comm], by simp [Nat.add_comm], ?_, ?_⟩ <;> simp only [] <;> omega

/-- Witness for C7 at a concrete soup. -/
theorem fixup_not_idempotent_witness :
    ((⟨4096, 64, 128, [7]⟩ : CGtPolygonSoup).FixUp.FixUp).m_pMember1 =
      u32 ((⟨4096, 64, 128, [7]⟩ : CGtPolygonSoup).FixUp.m_pMember1 + 4096) ∧
    ((⟨4096, 64, 128, [7]⟩ : CGtPolygonSoup).FixUp.FixUp).m_pMember2 =
      u32 ((⟨4096, 64, 128, [7]⟩ : CGtPolygonSoup).FixUp.m_pMember2 + 4096) ∧
    ((⟨4096, 64, 128, [7]⟩ : CGtPolygonSoup).FixUp.FixUp).m_pMember1 ≠
      (⟨4096, 64, 128, [7]⟩ : CGtPolygonSoup).FixUp.m_pMember1 ∧
    ((⟨4096, 64, 128, [7]⟩ : CGtPolygonSoup).FixUp.FixUp).m_pMember2 ≠
      (⟨4096, 64, 128, [7]⟩ : CGtPolygonSoup).FixUp.m_pMember2 :=
  fixup_not_idempotent ⟨4096, 64, 128, [7]⟩ (by decide)

/-- **C9.** `FixUp` mutates only the two member references: the object's
address and every other part of the block are unchanged. -/
theorem fixup_frame (s : CGtPolygonSoup) :
    (s.FixUp).base = s.base ∧ (s.FixUp).payload = s.payload :=
  ⟨rfl, rfl⟩

/-- **C10.** `FixUp` computes in 32-bit unsigned arithmetic: each field
becomes `(base + offset) mod 2^32`, wrapping silently; and the value written
to `m_pMember2` depends only on `m_pMember2`'s original offset and the base
address, not on the already-updated `m_pMember1` (two soups agreeing on
`base` and `m_pMember2` but not on `m_pMember1` get the same `m_pMember2`). -/
theorem fixup_mod32 (s t : CGtPolygonSoup)
    (hb : s.base = t.base) (hm : s.m_pMember2 = t.m_pMember2) :
    (s.FixUp).m_pMember1 = (s.base + s.m_pMember1) % 2 ^ 32 ∧
    (s.FixUp).m_pMember2 = (s.base + s.m_pMember2) % 2 ^ 32 ∧
    (s.FixUp).m_pMember2 = (t.FixUp).m_pMember2 := by
  simp [CGtPolygonSoup.FixUp, u32, hb, hm]

/-- Witness for C10: two soups sharing base and `m_pMember2` but with
different `m_pMember1`, one of them overflowing the 32-bit sum. -/
theorem fixup_mod32_witness :
    ((⟨2 ^ 32 - 4, 2, 8, []⟩ : CGtPolygonSoup).FixUp).m_pMember1 =
      (2 ^ 32 - 4 + 2) % 2 ^ 32 ∧
    ((⟨2 ^ 32 - 4, 2, 8, []⟩ : CGtPolygonSoup).FixUp).m_pMember2 =
      (2 ^ 32 - 4 + 8) % 2 ^ 32 ∧
    ((⟨2 ^ 32 - 4, 2, 8, []⟩ : CGtPolygonSoup).FixUp).m_pMember2 =
      ((⟨2 ^ 32 - 4, 99, 8, []⟩ : CGtPolygonSoup).FixUp).m_pMember2 :=
  fixup_mod32 ⟨2 ^ 32 - 4, 2, 8, []⟩ ⟨2 ^ 32 - 4, 99, 8, []⟩ rfl rfl

/-!
## Rational geometry

The KD-tree query bodies are not present in the sampled sources
(`CGtCollisionKDTree.cpp` holds only `INCLUDE_ASM` stubs), so the geometry
they operate on is modelled from the specification, with exact rational
coordinates in place of the console's floats.
-/

/-- A point/vector in the tree's coordinate space. -/
@[ext]
structure Vec3 where
  x : ℚ
  y : ℚ
  z : ℚ
deriving DecidableEq

/-- Coordinate of a vector along an axis (0 = x, 1 = y, 2 = z). -/
def Vec3.get (v : Vec3) : Fin 3 → ℚ
  | ⟨0, _⟩ => v.x
  | ⟨1, _⟩ => v.y
  | ⟨2, _⟩ => v.z

def vadd (u v : Vec3) : Vec3 := ⟨u.x + v.x, u.y + v.y, u.z + v.z⟩

def vsub (u v : Vec3) : Vec3 := ⟨u.x - v.x, u.y - v.y, u.z - v.z⟩

def vsmul (a : ℚ) (v : Vec3) : Vec3 := ⟨a * v.x, a * v.y, a * v.z⟩

def vdot (u v : Vec3) : ℚ := u.x * v.x + u.y * v.y + u.z * v.z

def vcross (u v : Vec3) : Vec3 :=
  ⟨u.y * v.z - u.z * v.y, u.z * v.x - u.x * v.z, u.x * v.y - u.y * v.x⟩

/-- Squared Euclidean distance between two points. -/
def sqDist (u v : Vec3) : ℚ := vdot (vsub u v) (vsub u v)

/-- Modelled from the spec: a polygon of the triangulated track/environment
geometry (the spec's "triangulated geometry"; the polygon-soup vertex/index
layout is not in the sampled sources). -/
structure Tri where
  v0 : Vec3
  v1 : Vec3
  v2 : Vec3
deriving DecidableEq

def Tri.e1 (T : Tri) : Vec3 := vsub T.v1 T.v0

def Tri.e2 (T : Tri) : Vec3 := vsub T.v2 T.v0

/-- Unnormalised surface normal of a triangle. -/
def Tri.normalv (T : Tri) : Vec3 := vcross T.e1 T.e2

/-- A degenerate (zero-area) polygon: its edge vectors are linearly
dependent, i.e. its normal vanishes. -/
def Tri.degenerate (T : Tri) : Prop := T.normalv = ⟨0, 0, 0⟩

instance (T : Tri) : Decidable T.degenerate := by
  unfold Tri.degenerate; infer_instance

/-- Membership of a point in the closed triangle, via barycentric
coordinates. -/
def memTri (T : Tri) (p : Vec3) : Prop :=
  ∃ s t : ℚ, 0 ≤ s ∧ 0 ≤ t ∧ s + t ≤ 1 ∧
    p = vadd T.v0 (vadd (vsmul s T.e1) (vsmul t T.e2))

/-- Clamp a rational to `[0, 1]`. -/
def clamp01 (q : ℚ) : ℚ := max 0 (min 1 q)

/-- The point of segment `[a, b]` closest to `c` (standard clamped
projection; any zero-length edge degenerates to its endpoint). -/
def closestOnSeg (a b c : Vec3) : Vec3 :=
  if vdot (vsub b a) (vsub b a) = 0 then a
  else vadd a (vsmul (clamp01 (vdot (vsub c a) (vsub b a) / vdot (vsub b a) (vsub b a))) (vsub b a))

/-- Gram determinant of the triangle's edge vectors (zero exactly on
degenerate triangles). -/
def gramDet (T : Tri) : ℚ :=
  vdot T.e1 T.e1 * vdot T.e2 T.e2 - vdot T.e1 T.e2 * vdot T.e1 T.e2

/-- First barycentric coordinate (along `e1`) of `v0 + w`, by Cramer's rule
on the Gram system. -/
def baryS (T : Tri) (w : Vec3) : ℚ :=
  (vdot T.e2 T.e2 * vdot w T.e1 - vdot T.e1 T.e2 * vdot w T.e2) / gramDet T

/-- Second barycentric coordinate (along `e2`) of `v0 + w`. -/
def baryT (T : Tri) (w : Vec3) : ℚ :=
  (vdot T.e1 T.e1 * vdot w T.e2 - vdot T.e1 T.e2 * vdot w T.e1) / gramDet T

/-- The candidate closest point of the triangle's interior: the orthogonal
projection of `c` onto the triangle's plane, kept only when its barycentric
coordinates place it inside the triangle (checked directly, so the guard
itself certifies membership). -/
def faceCandidate (T : Tri) (c : Vec3) : Option Vec3 :=
  if gramDet T = 0 then none
  else if 0 ≤ baryS T (vsub c T.v0) ∧ 0 ≤ baryT T (vsub c T.v0) ∧
      baryS T (vsub c T.v0) + baryT T (vsub c T.v0) ≤ 1 then
    some (vadd T.v0 (vadd (vsmul (baryS T (vsub c T.v0)) T.e1)
      (vsmul (baryT T (vsub c T.v0)) T.e2)))
  else none

/-- Candidate nearest points of a triangle to `c`: the three clamped edge
projections plus, when interior, the face projection.  For a non-degenerate
triangle the closest point of the triangle is among these. -/
def sphereCandidates (T : Tri) (c : Vec3) : List Vec3 :=
  closestOnSeg T.v0 T.v1 c :: closestOnSeg T.v0 T.v2 c ::
    closestOnSeg T.v1 T.v2 c :: (faceCandidate T c).toList

/-- Modelled from the spec: the per-polygon sphere-overlap test applied at
each visited leaf (4.3 "tests every referenced polygon in the soup for
sphere-polygon overlap"), as a closed-form test over exact rationals: the
sphere touches the triangle iff some candidate nearest point lies within
the radius.  Per the spec's error-handling design (§7), a degenerate
polygon is treated as producing no intersection. -/
def triSphereHit (T : Tri) (c : Vec3) (r : ℚ) : Bool :=
  if T.degenerate then false
  else (sphereCandidates T c).any fun p => decide (sqDist p c ≤ r * r)

/-- A finite line segment (start and end point). -/
structure Seg where
  p0 : Vec3
  p1 : Vec3
deriving DecidableEq

def Seg.dir (L : Seg) : Vec3 := vsub L.p1 L.p0

/-- Point of the segment at parametric distance `t` (`t = 0` is the start,
`t = 1` the end). -/
def Seg.ptAt (L : Seg) (t : ℚ) : Vec3 := vadd L.p0 (vsmul t L.dir)

/-- The parametric distance at which the segment's supporting line crosses
the triangle's supporting plane. -/
def hitT (T : Tri) (L : Seg) : ℚ :=
  vdot T.normalv (vsub T.v0 L.p0) / vdot T.normalv L.dir

/-- Modelled from the spec: the per-polygon segment-triangle intersection
test applied at each visited leaf (4.4), returning the parametric hit
distance in `[0, 1]` when the segment crosses the triangle.  Closed form:
the plane-crossing parameter, with barycentric containment checked
explicitly together with the reconstruction equation (so a `some` answer
certifies a genuine point common to segment and triangle).  Parallel,
coplanar and degenerate configurations yield `none` (§7: malformed
geometry is "no intersection"). -/
def segTriHit (T : Tri) (L : Seg) : Option ℚ :=
  if vdot T.normalv L.dir = 0 then none
  else if gramDet T = 0 then none
  else if 0 ≤ hitT T L ∧ hitT T L ≤ 1 ∧
      0 ≤ baryS T (vsub (L.ptAt (hitT T L)) T.v0) ∧
      0 ≤ baryT T (vsub (L.ptAt (hitT T L)) T.v0) ∧
      baryS T (vsub (L.ptAt (hitT T L)) T.v0) +
        baryT T (vsub (L.ptAt (hitT T L)) T.v0) ≤ 1 ∧
      L.ptAt (hitT T L) =
        vadd T.v0 (vadd (vsmul (baryS T (vsub (L.ptAt (hitT T L)) T.v0)) T.e1)
          (vsmul (baryT T (vsub (L.ptAt (hitT T L)) T.v0)) T.e2)) then
    some (hitT T L)
  else none

/-!
## Geometry lemmas
-/

theorem clamp01_bounds (q : ℚ) : 0 ≤ clamp01 q ∧ clamp01 q ≤ 1 :=
  ⟨le_max_left 0 _, max_le zero_le_one (min_le_left 1 q)⟩

theorem closestOnSeg_param (a b c : Vec3) :
    ∃ t : ℚ, 0 ≤ t ∧ t ≤ 1 ∧ closestOnSeg a b c = vadd a (vsmul t (vsub b a)) := by
  unfold closestOnSeg
  split
  · exact ⟨0, le_refl 0, zero_le_one, by ext <;> simp [vadd, vsmul]⟩
  · obtain ⟨h0, h1⟩ := clamp01_bounds (vdot (vsub c a) (vsub b a) / vdot (vsub b a) (vsub b a))
    exact ⟨_, h0, h1, rfl⟩

theorem memTri_edge01 (T : Tri) (t : ℚ) (h0 : 0 ≤ t) (h1 : t ≤ 1) :
    memTri T (vadd T.v0 (vsmul t (vsub T.v1 T.v0))) := by
  exact ⟨t, 0, h0, le_refl 0, by linarith, by
    ext <;> simp [vadd, vsmul, vsub, Tri.e1, Tri.e2]⟩

theorem memTri_edge02 (T : Tri) (t : ℚ) (h0 : 0 ≤ t) (h1 : t ≤ 1) :
    memTri T (vadd T.v0 (vsmul t (vsub T.v2 T.v0))) := by
  exact ⟨0, t, le_refl 0, h0, by linarith, by
    ext <;> simp [vadd, vsmul, vsub, Tri.e1, Tri.e2]⟩

theorem memTri_edge12 (T : Tri) (t : ℚ) (h0 : 0 ≤ t) (h1 : t ≤ 1) :
    memTri T (vadd T.v1 (vsmul t (vsub T.v2 T.v1))) := by
  exact ⟨1 - t, t, by linarith, h0, by linarith, by
    ext <;> simp [vadd, vsmul, vsub, Tri.e1, Tri.e2] <;> ring⟩

theorem faceCandidate_mem (T : Tri) (c p : Vec3) (h : faceCandidate T c = some p) :
    memTri T p := by
  unfold faceCandidate at h
  split at h
  · exact absurd h (by simp)
  · split at h
    · rename_i hin
      obtain ⟨hs, ht, hsum⟩ := hin
      simp only [Option.some.injEq] at h
      exact ⟨_, _, hs, ht, hsum, h.symm⟩
    · exact absurd h (by simp)

theorem segTriHit_bounds (T : Tri) (L : Seg) (t : ℚ)
    (h : segTriHit T L = some t) :
    0 ≤ t ∧ t ≤ 1 ∧ memTri T (L.ptAt t) := by
  unfold segTriHit at h
  split at h
  · exact absurd h (by simp)
  · split at h
    · exact absurd h (by simp)
    · split at h
      · rename_i hin
        obtain ⟨h0, h1, hs, hb, hsum, heq⟩ := hin
        simp only [Option.some.injEq] at h
        subst h
        exact ⟨h0, h1, _, _, hs, hb, hsum, heq⟩
      · exact absurd h (by simp)

theorem sphereCandidates_mem (T : Tri) (c p : Vec3) (h : p ∈ sphereCandidates T c) :
    memTri T p := by
  unfold sphereCandidates at h
  simp only [List.mem_cons] at h
  rcases h with h | h | h | h
  · obtain ⟨t, h0, h1, he⟩ := closestOnSeg_param T.v0 T.v1 c
    rw [h, he]; exact memTri_edge01 T t h0 h1
  · obtain ⟨t, h0, h1, he⟩ := closestOnSeg_param T.v0 T.v2 c
    rw [h, he]; exact memTri_edge02 T t h0 h1
  · obtain ⟨t, h0, h1, he⟩ := closestOnSeg_param T.v1 T.v2 c
    rw [h, he]; exact memTri_edge12 T t h0 h1
  · rcases hfc : faceCandidate T c with _ | q
    · rw [hfc] at h; simp at h
    · rw [hfc] at h; simp at h
      exact h ▸ faceCandidate_mem T c q hfc

/-- A positive sphere test certifies a point of the triangle within the
radius. -/
theorem triSphereHit_exists (T : Tri) (c : Vec3) (r : ℚ)
    (h : triSphereHit T c r = true) :
    ∃ p : Vec3, memTri T p ∧ sqDist p c ≤ r * r := by
  unfold triSphereHit at h
  split at h
  · exact absurd h (by simp)
  · rw [List.any_eq_true] at h
    obtain ⟨p, hp, hd⟩ := h
    exact ⟨p, sphereCandidates_mem T c p hp, of_decide_eq_true hd⟩

theorem triSphereHit_degenerate (T : Tri) (c : Vec3) (r : ℚ)
    (h : T.degenerate) : triSphereHit T c r = false := by
  rw [triSphereHit, if_pos h]

theorem segTriHit_degenerate (T : Tri) (L : Seg)
    (h : T.degenerate) : segTriHit T L = none := by
  have hz : vdot T.normalv L.dir = 0 := by
    rw [h]; simp [vdot]
  rw [segTriHit, if_pos hz]

/-- The default (out-of-range) triangle is degenerate. -/
def defaultTri : Tri := ⟨⟨0, 0, 0⟩, ⟨0, 0, 0⟩, ⟨0, 0, 0⟩⟩

theorem defaultTri_degenerate : defaultTri.degenerate := by
  show Tri.normalv _ = _
  ext <;> norm_num [Tri.normalv, vcross, Tri.e1, Tri.e2, vsub, defaultTri]

/-- Each squared coordinate difference is bounded by the squared distance. -/
theorem sqDist_axis (u v : Vec3) (a : Fin 3) :
    (u.get a - v.get a) ^ 2 ≤ sqDist u v := by
  fin_cases a <;>
    simp [Vec3.get, sqDist, vdot, vsub] <;>
    nlinarith [sq_nonneg (u.x - v.x), sq_nonneg (u.y - v.y), sq_nonneg (u.z - v.z)]

/-- A point within radius `r` of the centre lies in the slab of width `r`
around the centre on every axis. -/
theorem sphere_axis_reach (x c : Vec3) (r : ℚ) (a : Fin 3)
    (h : sqDist x c ≤ r * r) (hr : 0 ≤ r) :
    c.get a - r ≤ x.get a ∧ x.get a ≤ c.get a + r := by
  have hb : (x.get a - c.get a) ^ 2 ≤ r * r := le_trans (sqDist_axis x c a) h
  constructor
  · nlinarith [sq_nonneg (x.get a - c.get a + r)]
  · nlinarith [sq_nonneg (x.get a - c.get a - r)]

theorem get_ptAt (L : Seg) (t : ℚ) (a : Fin 3) :
    (L.ptAt t).get a = L.p0.get a + t * L.dir.get a := by
  fin_cases a <;> rfl

/-!
## CollisionKDTree model

Modelled from the spec: the query bodies of `CGtCollisionKDTree` are
`INCLUDE_ASM` stubs in the sampled sources, so the tree shape (§3: split
nodes with axis and coordinate over leaf polygon-index runs), the pruned
traversals and the callback protocol (§4.3-4.5) are reconstructed from the
specification's words.
-/

/-- The fixed-up polygon soup, as the flat polygon collection the tree
queries resolve indices against (the spec's "flat accessors to polygons by
index"). -/
abbrev Soup := List Tri

/-- Polygon lookup by index; out-of-range indices resolve to the degenerate
default triangle, which no query test ever reports. -/
def getTri (soup : Soup) (i : Nat) : Tri := soup.getD i defaultTri

/-- Modelled from the spec (§3): a binary tree of split nodes (splitting
axis, split coordinate, two children) terminating in leaves that reference
a run of polygon indices into the soup. -/
inductive KDNode where
  | leaf (polys : List Nat)
  | split (axis : Fin 3) (coord : ℚ) (lo hi : KDNode)

/-- Modelled from the spec (§3, tree invariant): relative to the region `R`
of space a node is responsible for, every soup polygon meeting the region
is listed by every leaf whose sub-region it meets — "the tree covers the
soup's full polygon set with no omissions".  A split node's low child is
responsible for the half-space at most `coord` on `axis`, its high child
for the half-space at least `coord`. -/
def covers (soup : Soup) (R : Vec3 → Prop) : KDNode → Prop
  | .leaf polys => ∀ i x, i < soup.length → memTri (getTri soup i) x → R x → i ∈ polys
  | .split a c lo hi =>
      covers soup (fun x => R x ∧ x.get a ≤ c) lo ∧
      covers soup (fun x => R x ∧ c ≤ x.get a) hi

/-- Per-polygon intersection result delivered by `IntersectSphere`
(spec 4.3: polygon id, contact point, surface normal, penetration depth;
the normal is unnormalised and the depth quadratic, as the exact-rational
stand-ins for the console's normalised float data). -/
structure SphereHit where
  poly : Nat
  point : Vec3
  normal : Vec3
  depth : ℚ
deriving DecidableEq

/-- Per-polygon intersection result of the line queries (spec 4.4/4.5:
polygon id, parametric hit distance in `[0,1]`, hit point, surface
normal). -/
structure LineHit where
  poly : Nat
  t : ℚ
  point : Vec3
  normal : Vec3
deriving DecidableEq

/-- Contact point reported for a sphere-polygon overlap: the first
candidate nearest point within the radius. -/
def contactPoint (T : Tri) (c : Vec3) (r : ℚ) : Vec3 :=
  ((sphereCandidates T c).filter fun p => decide (sqDist p c ≤ r * r)).headD T.v0

def mkSphereHit (soup : Soup) (c : Vec3) (r : ℚ) (i : Nat) : SphereHit :=
  ⟨i, contactPoint (getTri soup i) c r, (getTri soup i).normalv,
    r * r - sqDist (contactPoint (getTri soup i) c r) c⟩

def mkLineHit (soup : Soup) (L : Seg) (i : Nat) (t : ℚ) : LineHit :=
  ⟨i, t, L.ptAt t, (getTri soup i).normalv⟩

/-- Drive a caller-supplied callback over successive results, threading the
opaque context; a `false` return stops consumption immediately (spec 4.3:
"returning false/failure stops the traversal immediately").  The returned
flag is `false` exactly when the callback stopped the run. -/
def feed (cb : α → σ → Bool × σ) : List α → σ → Bool × σ
  | [], s => (true, s)
  | h :: rest, s =>
      match cb h s with
      | (false, s1) => (false, s1)
      | (true, s1) => feed cb rest s1

/-- The sphere-overlap results of one leaf's polygon run, in list order. -/
def leafSphere (soup : Soup) (c : Vec3) (r : ℚ) (polys : List Nat) : List SphereHit :=
  polys.filterMap fun i =>
    if triSphereHit (getTri soup i) c r then some (mkSphereHit soup c r i)
    else none

/-- The segment-intersection results of one leaf's polygon run. -/
def leafLine (soup : Soup) (L : Seg) (polys : List Nat) : List LineHit :=
  polys.filterMap fun i => (segTriHit (getTri soup i) L).map (mkLineHit soup L i)

/-- Modelled from the spec (4.3): `CGtCollisionKDTree::IntersectSphere`.
Recursive descent; a child is visited only when the sphere's slab reaches
its half-space (conservative inclusive comparison, per the design note);
at each leaf every referenced polygon is tested for sphere overlap and the
callback is invoked per true overlap, its return value controlling early
termination. -/
def IntersectSphere (soup : Soup) (c : Vec3) (r : ℚ)
    (cb : SphereHit → σ → Bool × σ) : KDNode → σ → Bool × σ
  | .leaf polys, s => feed cb (leafSphere soup c r polys) s
  | .split a sc lo hi, s =>
      match (if c.get a - r ≤ sc then IntersectSphere soup c r cb lo s
             else (true, s)) with
      | (false, s1) => (false, s1)
      | (true, s1) =>
          if sc ≤ c.get a + r then IntersectSphere soup c r cb hi s1
          else (true, s1)

/-- The results `IntersectSphere` visits, in traversal order, when the
callback never stops the run. -/
def sphereHitsOf (soup : Soup) (c : Vec3) (r : ℚ) : KDNode → List SphereHit
  | .leaf polys => leafSphere soup c r polys
  | .split a sc lo hi =>
      (if c.get a - r ≤ sc then sphereHitsOf soup c r lo else []) ++
      (if sc ≤ c.get a + r then sphereHitsOf soup c r hi else [])

/-- All sphere intersection results, gathered through the callback
interface with an always-continue collector. -/
def sphereHits (soup : Soup) (tree : KDNode) (c : Vec3) (r : ℚ) : List SphereHit :=
  (IntersectSphere soup c r (fun h l => (true, l ++ [h])) tree []).2

/-- Can the segment, restricted to parameters `[0, u]`, reach the half-space
`{x | x.get a ≤ c}`?  (The restricted coordinate is linear in the parameter,
so its range is spanned by the endpoint values.) -/
def reachLow (L : Seg) (u : ℚ) (a : Fin 3) (c : ℚ) : Bool :=
  decide (min (L.p0.get a) ((L.ptAt u).get a) ≤ c)

/-- Can the segment, restricted to parameters `[0, u]`, reach the half-space
`{x | c ≤ x.get a}`? -/
def reachHigh (L : Seg) (u : ℚ) (a : Fin 3) (c : ℚ) : Bool :=
  decide (c ≤ max (L.p0.get a) ((L.ptAt u).get a))

/-- Modelled from the spec (4.4): `CGtCollisionKDTree::IntersectLine`.
Recursive descent visiting only children whose half-space the segment can
cross, testing the segment against every leaf polygon and invoking the
callback once per intersecting polygon; early termination via the callback
return value, identical to 4.3. -/
def IntersectLine (soup : Soup) (L : Seg)
    (cb : LineHit → σ → Bool × σ) : KDNode → σ → Bool × σ
  | .leaf polys, s => feed cb (leafLine soup L polys) s
  | .split a sc lo hi, s =>
      match (if reachLow L 1 a sc then IntersectLine soup L cb lo s
             else (true, s)) with
      | (false, s1) => (false, s1)
      | (true, s1) =>
          if reachHigh L 1 a sc then IntersectLine soup L cb hi s1
          else (true, s1)

/-- The results `IntersectLine` visits, in traversal order, when the
callback never stops the run. -/
def lineHitsOf (soup : Soup) (L : Seg) : KDNode → List LineHit
  | .leaf polys => leafLine soup L polys
  | .split a sc lo hi =>
      (if reachLow L 1 a sc then lineHitsOf soup L lo else []) ++
      (if reachHigh L 1 a sc then lineHitsOf soup L hi else [])

/-- All line intersection results, gathered through the callback interface
with an always-continue collector. -/
def lineHits (soup : Soup) (tree : KDNode) (L : Seg) : List LineHit :=
  (IntersectLine soup L (fun h l => (true, l ++ [h])) tree []).2

/-- The parametric bound the nearest-hit search prunes against: the current
best hit distance, or the full segment when nothing has been found yet. -/
def bestBound : Option LineHit → ℚ
  | none => 1
  | some b => b.t

/-- One step of the nearest-hit leaf scan (spec 4.5): a polygon whose hit
distance is strictly closer than the current best replaces it. -/
def updateBest (soup : Soup) (L : Seg) (best : Option LineHit) (i : Nat) :
    Option LineHit :=
  match segTriHit (getTri soup i) L with
  | none => best
  | some t =>
      match best with
      | none => some (mkLineHit soup L i t)
      | some b => if t < b.t then some (mkLineHit soup L i t) else some b

/-- Modelled from the spec (4.5): the tightening descent of
`CGtCollisionKDTree::IntersectLineNearest` — maintains the running best
hit and prunes any child the segment, clipped to the current best
distance, cannot reach. -/
def nearAux (soup : Soup) (L : Seg) : KDNode → Option LineHit → Option LineHit
  | .leaf polys, best => polys.foldl (updateBest soup L) best
  | .split a sc lo hi, best =>
      match (if reachLow L (bestBound best) a sc then nearAux soup L lo best
             else best) with
      | b1 => if reachHigh L (bestBound b1) a sc then nearAux soup L hi b1 else b1

/-- Modelled from the spec (4.5): `CGtCollisionKDTree::IntersectLineNearest`.
`none` is the "no intersection found" return; `some` carries the populated
output slot. -/
def IntersectLineNearest (soup : Soup) (tree : KDNode) (L : Seg) : Option LineHit :=
  nearAux soup L tree none

/-- Minimum of a list of rationals (`none` on the empty list). -/
def minT : List ℚ → Option ℚ
  | [] => none
  | q :: rest =>
      match minT rest with
      | none => some q
      | some m => some (min q m)

/-- Does any soup polygon intersect the segment?  The brute-force
existence check the queries are measured against. -/
def anyPolyHit (soup : Soup) (L : Seg) : Bool :=
  (List.range soup.length).any fun i => (segTriHit (getTri soup i) L).isSome

/-!
## Traversal lemmas
-/

theorem feed_append (cb : α → σ → Bool × σ) (l1 l2 : List α) (s : σ) :
    feed cb (l1 ++ l2) s =
      match feed cb l1 s with
      | (false, s1) => (false, s1)
      | (true, s1) => feed cb l2 s1 := by
  induction l1 generalizing s with
  | nil => rfl
  | cons h rest ih =>
      rw [List.cons_append, feed, feed]
      rcases cb h s with ⟨b, s1⟩
      cases b
      · rfl
      · exact ih s1

theorem feed_collect (l : List α) (acc : List α) :
    feed (fun h t => (true, t ++ [h])) l acc = (true, acc ++ l) := by
  induction l generalizing acc with
  | nil => simp [feed]
  | cons h rest ih => rw [feed]; simp [ih]

/-- `IntersectSphere` is the callback run over the pruned traversal's
result list. -/
theorem interSphere_eq_feed (soup : Soup) (c : Vec3) (r : ℚ)
    (cb : SphereHit → σ → Bool × σ) (t : KDNode) (s : σ) :
    IntersectSphere soup c r cb t s = feed cb (sphereHitsOf soup c r t) s := by
  induction t generalizing s with
  | leaf polys => rfl
  | split a sc lo hi ihl ihh =>
      rw [IntersectSphere, sphereHitsOf, feed_append]
      by_cases h1 : c.get a - r ≤ sc
      · simp only [if_pos h1, ihl]
        rcases feed cb (sphereHitsOf soup c r lo) s with ⟨b, s1⟩
        cases b
        · rfl
        · by_cases h2 : sc ≤ c.get a + r
          · simp only [if_pos h2, ihh]
          · simp only [if_neg h2, feed]
      · simp only [if_neg h1, feed]
        by_cases h2 : sc ≤ c.get a + r
        · simp only [if_pos h2, ihh]
        · simp only [if_neg h2, feed]

theorem interLine_eq_feed (soup : Soup) (L : Seg)
    (cb : LineHit → σ → Bool × σ) (t : KDNode) (s : σ) :
    IntersectLine soup L cb t s = feed cb (lineHitsOf soup L t) s := by
  induction t generalizing s with
  | leaf polys => rfl
  | split a sc lo hi ihl ihh =>
      rw [IntersectLine, lineHitsOf, feed_append]
      by_cases h1 : reachLow L 1 a sc
      · simp only [if_pos h1, ihl]
        rcases feed cb (lineHitsOf soup L lo) s with ⟨b, s1⟩
        cases b
        · rfl
        · by_cases h2 : reachHigh L 1 a sc
          · simp only [if_pos h2, ihh]
          · simp only [if_neg h2, feed]
      · simp only [if_neg h1, feed]
        by_cases h2 : reachHigh L 1 a sc
        · simp only [if_pos h2, ihh]
        · simp only [if_neg h2, feed]

theorem sphereHits_eq (soup : Soup) (tree : KDNode) (c : Vec3) (r : ℚ) :
    sphereHits soup tree c r = sphereHitsOf soup c r tree := by
  rw [sphereHits, interSphere_eq_feed, feed_collect]; rfl

theorem lineHits_eq (soup : Soup) (tree : KDNode) (L : Seg) :
    lineHits soup tree L = lineHitsOf soup L tree := by
  rw [lineHits, interLine_eq_feed, feed_collect]; rfl

/-- Every result of a leaf scan is a positive sphere test on its own
polygon. -/
theorem mem_leafSphere (soup : Soup) (c : Vec3) (r : ℚ) (polys : List Nat)
    (h : hS ∈ leafSphere soup c r polys) :
    hS = mkSphereHit soup c r hS.poly ∧ triSphereHit (getTri soup hS.poly) c r = true := by
  rw [leafSphere, List.mem_filterMap] at h
  obtain ⟨i, _, hf⟩ := h
  by_cases ht : triSphereHit (getTri soup i) c r
  · rw [if_pos ht] at hf
    have : hS = mkSphereHit soup c r i := by injection hf with h'; exact h'.symm
    subst this
    exact ⟨rfl, ht⟩
  · rw [if_neg ht] at hf; cases hf

theorem mem_sphereHitsOf (soup : Soup) (c : Vec3) (r : ℚ) (t : KDNode)
    (h : hS ∈ sphereHitsOf soup c r t) :
    hS = mkSphereHit soup c r hS.poly ∧ triSphereHit (getTri soup hS.poly) c r = true := by
  induction t with
  | leaf polys => exact mem_leafSphere soup c r polys h
  | split a sc lo hi ihl ihh =>
      rw [sphereHitsOf, List.mem_append] at h
      rcases h with h | h
      · split at h
        · exact ihl h
        · cases h
      · split at h
        · exact ihh h
        · cases h

theorem mem_leafLine (soup : Soup) (L : Seg) (polys : List Nat)
    (h : hL ∈ leafLine soup L polys) :
    hL = mkLineHit soup L hL.poly hL.t ∧
      segTriHit (getTri soup hL.poly) L = some hL.t := by
  rw [leafLine, List.mem_filterMap] at h
  obtain ⟨i, _, hf⟩ := h
  rcases hh : segTriHit (getTri soup i) L with _ | t'
  · rw [hh] at hf; cases hf
  · rw [hh] at hf
    rw [Option.map_some'] at hf
    have : hL = mkLineHit soup L i t' := by injection hf with h'; exact h'.symm
    subst this
    exact ⟨rfl, hh⟩

theorem mem_lineHitsOf (soup : Soup) (L : Seg) (t : KDNode)
    (h : hL ∈ lineHitsOf soup L t) :
    hL = mkLineHit soup L hL.poly hL.t ∧
      segTriHit (getTri soup hL.poly) L = some hL.t := by
  induction t with
  | leaf polys => exact mem_leafLine soup L polys h
  | split a sc lo hi ihl ihh =>
      rw [lineHitsOf, List.mem_append] at h
      rcases h with h | h
      · split at h
        · exact ihl h
        · cases h
      · split at h
        · exact ihh h
        · cases h

/-- A reported polygon index is in range: out-of-range lookups resolve to
the degenerate default triangle, which fails both tests. -/
theorem segTriHit_poly_lt (soup : Soup) (L : Seg) (i : Nat) (t' : ℚ)
    (h : segTriHit (getTri soup i) L = some t') : i < soup.length := by
  by_contra hge
  rw [getTri, List.getD_eq_default _ _ (le_of_not_lt hge),
    segTriHit_degenerate _ _ defaultTri_degenerate] at h
  cases h

theorem triSphereHit_poly_lt (soup : Soup) (c : Vec3) (r : ℚ) (i : Nat)
    (h : triSphereHit (getTri soup i) c r = true) : i < soup.length := by
  by_contra hge
  rw [getTri, List.getD_eq_default _ _ (le_of_not_lt hge),
    triSphereHit_degenerate _ _ _ defaultTri_degenerate] at h
  cases h

/-!
## Pruning soundness
-/

/-- If the clipped segment contains a parameter whose point is in the low
half-space, the low reach test passes. -/
theorem reachLow_of (L : Seg) (u t c : ℚ) (a : Fin 3)
    (h0 : 0 ≤ t) (hu : t ≤ u) (hx : (L.ptAt t).get a ≤ c) :
    reachLow L u a c = true := by
  rw [reachLow, decide_eq_true_eq]
  rw [get_ptAt] at hx
  rw [get_ptAt]
  rcases le_total 0 (L.dir.get a) with hd | hd
  · have : L.p0.get a ≤ L.p0.get a + t * L.dir.get a := by nlinarith
    exact le_trans (min_le_left _ _) (le_trans this hx)
  · have : L.p0.get a + u * L.dir.get a ≤ L.p0.get a + t * L.dir.get a := by nlinarith
    exact le_trans (min_le_right _ _) (le_trans this hx)

theorem reachHigh_of (L : Seg) (u t c : ℚ) (a : Fin 3)
    (h0 : 0 ≤ t) (hu : t ≤ u) (hx : c ≤ (L.ptAt t).get a) :
    reachHigh L u a c = true := by
  rw [reachHigh, decide_eq_true_eq]
  rw [get_ptAt] at hx
  rw [get_ptAt]
  rcases le_total 0 (L.dir.get a) with hd | hd
  · have : L.p0.get a + t * L.dir.get a ≤ L.p0.get a + u * L.dir.get a := by nlinarith
    exact le_trans hx (le_trans this (le_max_right _ _))
  · have : L.p0.get a + t * L.dir.get a ≤ L.p0.get a := by nlinarith
    exact le_trans hx (le_trans this (le_max_left _ _))

/-- Loosening the clip bound preserves a positive reach test. -/
theorem reachLow_mono (L : Seg) (u c : ℚ) (a : Fin 3)
    (h0 : 0 ≤ u) (h1 : u ≤ 1) (h : reachLow L u a c = true) :
    reachLow L 1 a c = true := by
  rw [reachLow, decide_eq_true_eq, get_ptAt] at h ⊢
  rcases le_total 0 (L.dir.get a) with hd | hd
  · have hm : min (L.p0.get a) (L.p0.get a + u * L.dir.get a) = L.p0.get a :=
      min_eq_left (by nlinarith)
    rw [hm] at h
    exact le_trans (min_le_left _ _) h
  · have hm : L.p0.get a + 1 * L.dir.get a ≤ L.p0.get a + u * L.dir.get a := by nlinarith
    exact le_trans (min_le_min (le_refl _) hm) h

theorem reachHigh_mono (L : Seg) (u c : ℚ) (a : Fin 3)
    (h0 : 0 ≤ u) (h1 : u ≤ 1) (h : reachHigh L u a c = true) :
    reachHigh L 1 a c = true := by
  rw [reachHigh, decide_eq_true_eq, get_ptAt] at h ⊢
  rcases le_total 0 (L.dir.get a) with hd | hd
  · have hm : L.p0.get a + u * L.dir.get a ≤ L.p0.get a + 1 * L.dir.get a := by nlinarith
    exact le_trans h (max_le_max (le_refl _) hm)
  · have hm : max (L.p0.get a) (L.p0.get a + u * L.dir.get a) = L.p0.get a :=
      max_eq_left (by nlinarith)
    rw [hm] at h
    exact le_trans h (le_max_left _ _)

/-!
## Coverage (no false negatives)
-/

/-- A polygon listed in a leaf with a positive sphere test yields its index
among the leaf results. -/
theorem leafSphere_poly_mem (soup : Soup) (c : Vec3) (r : ℚ)
    (polys : List Nat) (i : Nat) (hi : i ∈ polys)
    (ht : triSphereHit (getTri soup i) c r = true) :
    i ∈ (leafSphere soup c r polys).map SphereHit.poly := by
  refine List.mem_map.mpr ⟨mkSphereHit soup c r i, ?_, rfl⟩
  exact List.mem_filterMap.mpr ⟨i, hi, by rw [if_pos ht]⟩

theorem leafLine_poly_mem (soup : Soup) (L : Seg)
    (polys : List Nat) (i : Nat) (t' : ℚ) (hi : i ∈ polys)
    (ht : segTriHit (getTri soup i) L = some t') :
    i ∈ (leafLine soup L polys).map LineHit.poly := by
  refine List.mem_map.mpr ⟨mkLineHit soup L i t', ?_, rfl⟩
  exact List.mem_filterMap.mpr ⟨i, hi, by rw [ht, Option.map_some']⟩

/-- No false negatives for the sphere traversal: a polygon whose witness
point is inside the node's region and within the sphere is reported. -/
theorem sphereHitsOf_covers (soup : Soup) (c : Vec3) (r : ℚ) (i : Nat) (x : Vec3)
    (hr : 0 ≤ r) (hx : memTri (getTri soup i) x) (hd : sqDist x c ≤ r * r)
    (ht : triSphereHit (getTri soup i) c r = true) :
    ∀ (t : KDNode) (R : Vec3 → Prop), covers soup R t → i < soup.length → R x →
      i ∈ (sphereHitsOf soup c r t).map SphereHit.poly := by
  intro t
  induction t with
  | leaf polys =>
      intro R hcov hlen hR
      exact leafSphere_poly_mem soup c r polys i (hcov i x hlen hx hR) ht
  | split a sc lo hi ihl ihh =>
      intro R hcov hlen hR
      obtain ⟨hcl, hch⟩ := hcov
      rw [sphereHitsOf, List.map_append]
      rcases le_total (x.get a) sc with hside | hside
      · have hv : c.get a - r ≤ sc :=
          le_trans (sphere_axis_reach x c r a hd hr).1 hside
        rw [if_pos hv]
        exact List.mem_append_left _ (ihl _ hcl hlen ⟨hR, hside⟩)
      · have hv : sc ≤ c.get a + r :=
          le_trans hside (sphere_axis_reach x c r a hd hr).2
        rw [if_pos hv]
        exact List.mem_append_right _ (ihh _ hch hlen ⟨hR, hside⟩)

/-- No false negatives for the line traversal: a polygon the segment hits
at a parameter whose point lies in the node's region is reported. -/
theorem lineHitsOf_covers (soup : Soup) (L : Seg) (i : Nat) (t' : ℚ)
    (ht : segTriHit (getTri soup i) L = some t') :
    ∀ (t : KDNode) (R : Vec3 → Prop), covers soup R t → i < soup.length →
      R (L.ptAt t') → i ∈ (lineHitsOf soup L t).map LineHit.poly := by
  obtain ⟨h0, h1, hmem⟩ := segTriHit_bounds _ _ _ ht
  intro t
  induction t with
  | leaf polys =>
      intro R hcov hlen hR
      exact leafLine_poly_mem soup L polys i t' (hcov i _ hlen hmem hR) ht
  | split a sc lo hi ihl ihh =>
      intro R hcov hlen hR
      obtain ⟨hcl, hch⟩ := hcov
      rw [lineHitsOf, List.map_append]
      rcases le_total ((L.ptAt t').get a) sc with hside | hside
      · rw [if_pos (reachLow_of L 1 t' sc a h0 h1 hside)]
        exact List.mem_append_left _ (ihl _ hcl hlen ⟨hR, hside⟩)
      · rw [if_pos (reachHigh_of L 1 t' sc a h0 h1 hside)]
        exact List.mem_append_right _ (ihh _ hch hlen ⟨hR, hside⟩)

/-!
## Nearest-hit lemmas
-/

/-- A well-formed running best: its record is the one the leaf scan builds
and its distance is a genuine hit of its polygon. -/
def goodHit (soup : Soup) (L : Seg) (b : LineHit) : Prop :=
  b = mkLineHit soup L b.poly b.t ∧ segTriHit (getTri soup b.poly) L = some b.t

def goodOpt (soup : Soup) (L : Seg) (best : Option LineHit) : Prop :=
  ∀ b, best = some b → goodHit soup L b

theorem goodOpt_none (soup : Soup) (L : Seg) : goodOpt soup L none := by
  intro b h; cases h

theorem bestBound_bounds (soup : Soup) (L : Seg) (best : Option LineHit)
    (h : goodOpt soup L best) : 0 ≤ bestBound best ∧ bestBound best ≤ 1 := by
  cases best with
  | none => exact ⟨zero_le_one, le_refl 1⟩
  | some b =>
      obtain ⟨-, hb⟩ := h b rfl
      obtain ⟨h0, h1, -⟩ := segTriHit_bounds _ _ _ hb
      exact ⟨h0, h1⟩

theorem updateBest_from (soup : Soup) (L : Seg) (best : Option LineHit) (i : Nat)
    (b : LineHit) (h : updateBest soup L best i = some b) :
    best = some b ∨
      (b = mkLineHit soup L i b.t ∧ segTriHit (getTri soup i) L = some b.t) := by
  rcases hs : segTriHit (getTri soup i) L with _ | t'
  · rw [updateBest, hs] at h
    exact Or.inl h
  · rw [updateBest, hs] at h
    cases best with
    | none =>
        have h' : mkLineHit soup L i t' = b := by
          have h'' : some (mkLineHit soup L i t') = some b := h
          injection h''
        subst h'
        exact Or.inr ⟨rfl, rfl⟩
    | some b0 =>
        have h' : (if t' < b0.t then some (mkLineHit soup L i t') else some b0) =
            some b := h
        by_cases hlt : t' < b0.t
        · rw [if_pos hlt] at h'
          have h'' : mkLineHit soup L i t' = b := by injection h'
          subst h''
          exact Or.inr ⟨rfl, rfl⟩
        · rw [if_neg hlt] at h'
          exact Or.inl h'

theorem updateBest_mono (soup : Soup) (L : Seg) (best : Option LineHit) (i : Nat)
    (b0 : LineHit) (h : best = some b0) :
    ∃ b, updateBest soup L best i = some b ∧ b.t ≤ b0.t := by
  subst h
  rcases hs : segTriHit (getTri soup i) L with _ | t'
  · exact ⟨b0, by rw [updateBest, hs], le_refl _⟩
  · by_cases hlt : t' < b0.t
    · exact ⟨mkLineHit soup L i t', by rw [updateBest, hs]; exact if_pos hlt,
        le_of_lt hlt⟩
    · exact ⟨b0, by rw [updateBest, hs]; exact if_neg hlt, le_refl _⟩

theorem foldBest_from (soup : Soup) (L : Seg) (polys : List Nat) :
    ∀ (best : Option LineHit) (b : LineHit),
      polys.foldl (updateBest soup L) best = some b →
      best = some b ∨ b ∈ leafLine soup L polys := by
  induction polys with
  | nil => exact fun best b h => Or.inl h
  | cons j rest ih =>
      intro best b h
      rw [List.foldl_cons] at h
      rcases ih (updateBest soup L best j) b h with h' | h'
      · rcases updateBest_from soup L best j b h' with h'' | ⟨hb, hs⟩
        · exact Or.inl h''
        · refine Or.inr (List.mem_filterMap.mpr ⟨j, List.mem_cons_self j rest, ?_⟩)
          rw [hs, Option.map_some', ← hb]
      · refine Or.inr ?_
        rw [leafLine, List.mem_filterMap] at h' ⊢
        obtain ⟨a, ha, hf⟩ := h'
        exact ⟨a, List.mem_cons_of_mem j ha, hf⟩

theorem foldBest_mono (soup : Soup) (L : Seg) (polys : List Nat) :
    ∀ (best : Option LineHit) (b0 : LineHit), best = some b0 →
      ∃ b, polys.foldl (updateBest soup L) best = some b ∧ b.t ≤ b0.t := by
  induction polys with
  | nil => exact fun best b0 h => ⟨b0, h, le_refl _⟩
  | cons j rest ih =>
      intro best b0 h
      obtain ⟨b1, h1, hle1⟩ := updateBest_mono soup L best j b0 h
      obtain ⟨b, hb, hle⟩ := ih _ b1 h1
      exact ⟨b, by rw [List.foldl_cons]; exact hb, le_trans hle hle1⟩

theorem foldBest_complete (soup : Soup) (L : Seg) (polys : List Nat) :
    ∀ (best : Option LineHit) (i : Nat) (ti : ℚ), i ∈ polys →
      segTriHit (getTri soup i) L = some ti →
      ∃ b, polys.foldl (updateBest soup L) best = some b ∧ b.t ≤ ti := by
  induction polys with
  | nil => intro best i ti hi; cases hi
  | cons j rest ih =>
      intro best i ti hi hs
      rw [List.foldl_cons]
      rcases List.mem_cons.mp hi with rfl | hi'
      · have hstep : ∃ b1, updateBest soup L best i = some b1 ∧ b1.t ≤ ti := by
          cases best with
          | none =>
              refine ⟨mkLineHit soup L i ti, ?_, le_refl _⟩
              rw [updateBest, hs]
          | some b0 =>
              by_cases hlt : ti < b0.t
              · refine ⟨mkLineHit soup L i ti, ?_, le_refl _⟩
                rw [updateBest, hs]
                exact if_pos hlt
              · refine ⟨b0, ?_, le_of_not_lt hlt⟩
                rw [updateBest, hs]
                exact if_neg hlt
        obtain ⟨b1, h1, hle1⟩ := hstep
        obtain ⟨b, hb, hle⟩ := foldBest_mono soup L rest _ b1 h1
        exact ⟨b, hb, le_trans hle hle1⟩
      · exact ih _ i ti hi' hs

theorem nearAux_mono (soup : Soup) (L : Seg) :
    ∀ (t : KDNode) (best : Option LineHit) (b0 : LineHit), best = some b0 →
      ∃ b, nearAux soup L t best = some b ∧ b.t ≤ b0.t := by
  intro t
  induction t with
  | leaf polys => exact fun best b0 h => foldBest_mono soup L polys best b0 h
  | split a sc lo hi ihl ihh =>
      intro best b0 h
      rw [nearAux]
      have hstep : ∃ b1,
          (if reachLow L (bestBound best) a sc then nearAux soup L lo best else best)
            = some b1 ∧ b1.t ≤ b0.t := by
        by_cases hv : reachLow L (bestBound best) a sc
        · rw [if_pos hv]; exact ihl best b0 h
        · rw [if_neg hv]; exact ⟨b0, h, le_refl _⟩
      obtain ⟨b1, h1, hle1⟩ := hstep
      rw [h1]
      by_cases hv2 : reachHigh L (bestBound (some b1)) a sc
      · rw [if_pos hv2]
        obtain ⟨b, hb, hle⟩ := ihh (some b1) b1 rfl
        exact ⟨b, hb, le_trans hle hle1⟩
      · rw [if_neg hv2]
        exact ⟨b1, rfl, hle1⟩

theorem nearAux_sound (soup : Soup) (L : Seg) :
    ∀ (t : KDNode) (best : Option LineHit), goodOpt soup L best →
      ∀ b, nearAux soup L t best = some b →
        best = some b ∨ b ∈ lineHitsOf soup L t := by
  intro t
  induction t with
  | leaf polys => exact fun best _ b h => foldBest_from soup L polys best b h
  | split a sc lo hi ihl ihh =>
      intro best hgood b h
      rw [nearAux] at h
      obtain ⟨hb0, hb1⟩ := bestBound_bounds soup L best hgood
      rcases hv : reachLow L (bestBound best) a sc with _ | _
      · -- low child pruned
        rw [hv] at h
        simp only [Bool.false_eq_true, if_false] at h
        rcases hv2 : reachHigh L (bestBound best) a sc with _ | _
        · rw [hv2] at h
          simp only [Bool.false_eq_true, if_false] at h
          exact Or.inl h
        · rw [hv2] at h
          simp only [if_true] at h
          rcases ihh best hgood b h with h' | h'
          · exact Or.inl h'
          · refine Or.inr ?_
            rw [lineHitsOf, if_pos (reachHigh_mono L _ sc a hb0 hb1 hv2)]
            exact List.mem_append_right _ h'
      · -- low child visited
        rw [hv] at h
        simp only [if_true] at h
        have hlift : ∀ b', nearAux soup L lo best = some b' →
            best = some b' ∨ b' ∈ lineHitsOf soup L (.split a sc lo hi) := by
          intro b' hb'
          rcases ihl best hgood b' hb' with h' | h'
          · exact Or.inl h'
          · refine Or.inr ?_
            rw [lineHitsOf, if_pos (reachLow_mono L _ sc a hb0 hb1 hv)]
            exact List.mem_append_left _ h'
        have hgood1 : goodOpt soup L (nearAux soup L lo best) := by
          intro b' hb'
          rcases hlift b' hb' with h' | h'
          · exact hgood b' h'
          · obtain ⟨hb, hs⟩ := mem_lineHitsOf soup L _ h'
            exact ⟨hb, hs⟩
        obtain ⟨hc0, hc1⟩ := bestBound_bounds soup L _ hgood1
        rcases hv2 : reachHigh L (bestBound (nearAux soup L lo best)) a sc with _ | _
        · rw [hv2] at h
          simp only [Bool.false_eq_true, if_false] at h
          exact hlift b h
        · rw [hv2] at h
          simp only [if_true] at h
          rcases ihh _ hgood1 b h with h' | h'
          · exact hlift b h'
          · refine Or.inr ?_
            rw [lineHitsOf, if_pos (reachHigh_mono L _ sc a hc0 hc1 hv2)]
            exact List.mem_append_right _ h'

theorem nearAux_goodOpt (soup : Soup) (L : Seg) (t : KDNode)
    (best : Option LineHit) (hgood : goodOpt soup L best) :
    goodOpt soup L (nearAux soup L t best) := by
  intro b hb
  rcases nearAux_sound soup L t best hgood b hb with h | h
  · exact hgood b h
  · obtain ⟨hb', hs⟩ := mem_lineHitsOf soup L _ h
    exact ⟨hb', hs⟩

/-- Completeness of the tightening search: any genuine hit whose point lies
in the node's region bounds the returned best distance from above. -/
theorem nearAux_complete (soup : Soup) (L : Seg) (i : Nat) (ti : ℚ)
    (hs : segTriHit (getTri soup i) L = some ti) (hlen : i < soup.length) :
    ∀ (t : KDNode) (R : Vec3 → Prop) (best : Option LineHit),
      covers soup R t → goodOpt soup L best → R (L.ptAt ti) →
      ∃ b, nearAux soup L t best = some b ∧ b.t ≤ ti := by
  obtain ⟨ht0, ht1, hmem⟩ := segTriHit_bounds _ _ _ hs
  intro t
  induction t with
  | leaf polys =>
      intro R best hcov hgood hR
      exact foldBest_complete soup L polys best i ti (hcov i _ hlen hmem hR) hs
  | split a sc lo hi ihl ihh =>
      intro R best hcov hgood hR
      obtain ⟨hcl, hch⟩ := hcov
      rw [nearAux]
      rcases le_total ((L.ptAt ti).get a) sc with hside | hside
      · -- witness point in the low half-space
        by_cases hdone : ∃ b0, best = some b0 ∧ b0.t ≤ ti
        · obtain ⟨b0, hb0, hle0⟩ := hdone
          have hm := nearAux_mono soup L (.split a sc lo hi) best b0 hb0
          rw [nearAux] at hm
          obtain ⟨b, hb, hle⟩ := hm
          exact ⟨b, hb, le_trans hle hle0⟩
        · have hu : ti ≤ bestBound best := by
            cases best with
            | none => exact ht1
            | some b0 =>
                show ti ≤ b0.t
                by_contra hgt
                exact hdone ⟨b0, rfl, le_of_not_le hgt⟩
          rw [if_pos (reachLow_of L _ ti sc a ht0 hu hside)]
          obtain ⟨b1, h1, hle1⟩ := ihl _ best hcl hgood ⟨hR, hside⟩
          rw [h1]
          by_cases hv2 : reachHigh L (bestBound (some b1)) a sc
          · rw [if_pos hv2]
            obtain ⟨b, hb, hle⟩ := nearAux_mono soup L hi (some b1) b1 rfl
            exact ⟨b, hb, le_trans hle hle1⟩
          · rw [if_neg hv2]
            exact ⟨b1, rfl, hle1⟩
      · -- witness point in the high half-space
        have hgood1 : goodOpt soup L
            (if reachLow L (bestBound best) a sc then nearAux soup L lo best
             else best) := by
          by_cases hv : reachLow L (bestBound best) a sc
          · rw [if_pos hv]; exact nearAux_goodOpt soup L lo best hgood
          · rw [if_neg hv]; exact hgood
        set b1opt := (if reachLow L (bestBound best) a sc then nearAux soup L lo best
             else best) with hb1opt
        by_cases hdone : ∃ b0, b1opt = some b0 ∧ b0.t ≤ ti
        · obtain ⟨b0, hb0, hle0⟩ := hdone
          rw [hb0]
          by_cases hv2 : reachHigh L (bestBound (some b0)) a sc
          · rw [if_pos hv2]
            obtain ⟨b, hb, hle⟩ := nearAux_mono soup L hi (some b0) b0 rfl
            exact ⟨b, hb, le_trans hle hle0⟩
          · rw [if_neg hv2]
            exact ⟨b0, rfl, hle0⟩
        · have hu : ti ≤ bestBound b1opt := by
            rcases hb1 : b1opt with _ | b0
            · exact ht1
            · show ti ≤ b0.t
              by_contra hgt
              exact hdone ⟨b0, hb1, le_of_not_le hgt⟩
          rw [if_pos (reachHigh_of L _ ti sc a ht0 hu hside)]
          exact ihh _ b1opt hch hgood1 ⟨hR, hside⟩

/-!
## Remaining infrastructure
-/

theorem minT_eq_none (l : List ℚ) : minT l = none ↔ l = [] := by
  cases l with
  | nil => simp [minT]
  | cons q rest =>
      simp only [minT]
      cases minT rest <;> simp

theorem minT_spec (l : List ℚ) (a : ℚ) (hmem : a ∈ l) (hlb : ∀ q ∈ l, a ≤ q) :
    minT l = some a := by
  induction l with
  | nil => cases hmem
  | cons q rest ih =>
      rw [minT]
      rcases hr : minT rest with _ | m
      · have : rest = [] := (minT_eq_none rest).mp hr
        subst this
        rcases List.mem_cons.mp hmem with rfl | h
        · rfl
        · cases h
      · have hm_mem : m ∈ rest := by
          clear ih hmem hlb
          induction rest generalizing m with
          | nil => cases hr
          | cons p rest' ih' =>
              rw [minT] at hr
              rcases hr' : minT rest' with _ | m'
              · rw [hr'] at hr
                injection hr with he
                exact he ▸ List.mem_cons_self p rest'
              · rw [hr'] at hr
                injection hr with he
                rcases le_total p m' with hpm | hpm
                · rw [← he, min_eq_left hpm]
                  exact List.mem_cons_self p rest'
                · rw [← he, min_eq_right hpm]
                  exact List.mem_cons_of_mem p (ih' m' hr')
        rcases List.mem_cons.mp hmem with rfl | h
        · have hle : a ≤ m := hlb m (List.mem_cons_of_mem a hm_mem)
          show some (min a m) = some a
          rw [min_eq_left hle]
        · have heq : minT rest = some a :=
            ih h fun q hq => hlb q (List.mem_cons_of_mem _ hq)
          rw [hr] at heq
          injection heq with he
          subst he
          show some (min q m) = some m
          rw [min_eq_right (hlb q (List.mem_cons_self q rest))]

/-- Wrap a callback so the threaded context also counts how many times the
callback has been invoked. -/
def countCb (cb : α → σ → Bool × σ) : α → σ × Nat → Bool × (σ × Nat) :=
  fun h p => ((cb h p.1).1, ((cb h p.1).2, p.2 + 1))

/-- A callback that always stops is invoked exactly once on a non-empty
run and never on an empty one. -/
theorem feed_count (cb : α → σ → Bool × σ) (hstop : ∀ h s, (cb h s).1 = false)
    (l : List α) (s : σ) (n : Nat) :
    (feed (countCb cb) l (s, n)).2.2 = if l.isEmpty then n else n + 1 := by
  cases l with
  | nil => rfl
  | cons h rest =>
      rw [feed]
      have hc : countCb cb h (s, n) = (false, ((cb h s).2, n + 1)) := by
        rw [countCb]
        simp only [hstop]
      rw [hc]
  -- the match in `feed` sees the literal pair and reduces definitionally
      rfl

/-- Wrap a callback so the threaded context also records whether the
callback has already returned "stop" (third component) and counts how many
invocations happened after that point (fourth component).  A positive final
fourth component would mean the traversal invoked the callback again after
being told to stop. -/
def stopTrack (cb : α → σ → Bool × σ) :
    α → σ × Nat × Bool × Nat → Bool × (σ × Nat × Bool × Nat) :=
  fun h p =>
    ((cb h p.1).1,
      ((cb h p.1).2, p.2.1 + 1, p.2.2.1 || !(cb h p.1).1,
        if p.2.2.1 then p.2.2.2 + 1 else p.2.2.2))

/-- Driving any callback over a run never invokes it again once it has
returned "stop": the post-stop invocation counter stays at its initial
value when the run starts un-stopped. -/
theorem feed_stopTrack (cb : α → σ → Bool × σ) (l : List α) :
    ∀ (s : σ) (n m : Nat),
      (feed (stopTrack cb) l (s, n, false, m)).2.2.2.2 = m := by
  induction l with
  | nil => intro s n m; rfl
  | cons h rest ih =>
      intro s n m
      rw [feed]
      rcases hc : cb h s with ⟨c, s1⟩
      have hval : stopTrack cb h (s, n, false, m) = (c, (s1, n + 1, !c, m)) := by
        simp [stopTrack, hc]
      rw [hval]
      cases c with
      | false => rfl
      | true => exact ih s1 (n + 1) m

/-- Brute-force check: does any soup polygon intersect the segment? -/
theorem anyPolyHit_iff (soup : Soup) (L : Seg) :
    anyPolyHit soup L = true ↔
      ∃ i t', i < soup.length ∧ segTriHit (getTri soup i) L = some t' := by
  rw [anyPolyHit, List.any_eq_true]
  constructor
  · rintro ⟨i, hi, hh⟩
    rw [List.mem_range] at hi
    obtain ⟨t', ht'⟩ := Option.isSome_iff_exists.mp hh
    exact ⟨i, t', hi, ht'⟩
  · rintro ⟨i, t', hi, ht'⟩
    exact ⟨i, List.mem_range.mpr hi, by rw [ht']; rfl⟩

/-!
## Claim theorems for the KD-tree queries
-/

/-- **C2.** No false negatives: on a tree covering the soup, every polygon
the sphere overlaps (per the closed-form test) is reported by
`IntersectSphere`, and every polygon the segment hits is reported by
`IntersectLine` — both gathered through the callback interface. -/
theorem kd_queries_no_false_negatives (soup : Soup) (tree : KDNode)
    (c : Vec3) (r : ℚ) (L : Seg) (i : Nat) (t' : ℚ)
    (hcov : covers soup (fun _ => True) tree) (hr : 0 ≤ r)
    (hsph : triSphereHit (getTri soup i) c r = true)
    (hseg : segTriHit (getTri soup i) L = some t') :
    i ∈ (sphereHits soup tree c r).map SphereHit.poly ∧
    i ∈ (lineHits soup tree L).map LineHit.poly := by
  constructor
  · rw [sphereHits_eq]
    obtain ⟨x, hx, hd⟩ := triSphereHit_exists _ _ _ hsph
    exact sphereHitsOf_covers soup c r i x hr hx hd hsph tree _ hcov
      (triSphereHit_poly_lt soup c r i hsph) trivial
  · rw [lineHits_eq]
    exact lineHitsOf_covers soup L i t' hseg tree _ hcov
      (segTriHit_poly_lt soup L i t' hseg) trivial

/-- **C3.** No false positives: every result delivered by `IntersectSphere`
or `IntersectLine` (via callback) or by `IntersectLineNearest` (via the
output slot) is a genuine overlap of its polygon under the closed-form
intersection tests, at the reported parametric distance. -/
theorem kd_queries_no_false_positives (soup : Soup) (tree : KDNode)
    (c : Vec3) (r : ℚ) (L : Seg) (hS : SphereHit) (hL hN : LineHit)
    (hmS : hS ∈ sphereHits soup tree c r)
    (hmL : hL ∈ lineHits soup tree L)
    (hmN : IntersectLineNearest soup tree L = some hN) :
    triSphereHit (getTri soup hS.poly) c r = true ∧
    segTriHit (getTri soup hL.poly) L = some hL.t ∧
    segTriHit (getTri soup hN.poly) L = some hN.t := by
  refine ⟨?_, ?_, ?_⟩
  · rw [sphereHits_eq] at hmS
    exact (mem_sphereHitsOf soup c r tree hmS).2
  · rw [lineHits_eq] at hmL
    exact (mem_lineHitsOf soup L tree hmL).2
  · rw [IntersectLineNearest] at hmN
    rcases nearAux_sound soup L tree none (goodOpt_none soup L) hN hmN with h | h
    · cases h
    · exact (mem_lineHitsOf soup L tree h).2

/-- **C4.** Nearest-hit correctness: the parametric distance returned by
`IntersectLineNearest` is exactly the minimum of the distances of all hits
reported by `IntersectLine` on the same segment (and the two queries agree
on whether any hit exists at all). -/
theorem nearest_is_min_of_line_hits (soup : Soup) (tree : KDNode) (L : Seg)
    (hcov : covers soup (fun _ => True) tree) :
    (IntersectLineNearest soup tree L).map LineHit.t =
      minT ((lineHits soup tree L).map LineHit.t) := by
  rcases hn : IntersectLineNearest soup tree L with _ | b
  · suffices hnil : lineHits soup tree L = [] by
      rw [hnil]; rfl
    by_contra hne
    obtain ⟨h0, hh0⟩ := List.exists_mem_of_ne_nil _ hne
    rw [lineHits_eq] at hh0
    obtain ⟨-, hs0⟩ := mem_lineHitsOf soup L tree hh0
    obtain ⟨bb, hbb, -⟩ := nearAux_complete soup L h0.poly h0.t hs0
      (segTriHit_poly_lt soup L _ _ hs0) tree _ none hcov
      (goodOpt_none soup L) trivial
    rw [IntersectLineNearest] at hn
    rw [hn] at hbb
    cases hbb
  · rw [IntersectLineNearest] at hn
    rw [Option.map_some']
    symm
    apply minT_spec
    · rcases nearAux_sound soup L tree none (goodOpt_none soup L) b hn with h | h
      · cases h
      · rw [lineHits_eq]
        exact List.mem_map.mpr ⟨b, h, rfl⟩
    · intro q hq
      rw [lineHits_eq] at hq
      obtain ⟨h1, hh1, rfl⟩ := List.mem_map.mp hq
      obtain ⟨-, hs1⟩ := mem_lineHitsOf soup L tree hh1
      obtain ⟨bb, hbb, hle⟩ := nearAux_complete soup L h1.poly h1.t hs1
        (segTriHit_poly_lt soup L _ _ hs1) tree _ none hcov
        (goodOpt_none soup L) trivial
      rw [hn] at hbb
      injection hbb with he
      exact he ▸ hle

/-- **C5.** Early termination, for every caller-supplied callback: once the
callback returns "stop" the traversal never invokes it again (the
instrumented count of post-stop invocations is zero for arbitrary
callbacks, in `IntersectSphere` and `IntersectLine` alike); in particular
a callback that returns stop at its first hit is invoked exactly once when
any polygon intersects the query shape — even when several do — and not at
all otherwise. -/
theorem callback_stop_never_reinvoked (soup : Soup) (tree : KDNode)
    (c : Vec3) (r : ℚ) (L : Seg) {σ1 σ2 : Type}
    (cbS : SphereHit → σ1 → Bool × σ1) (cbL : LineHit → σ2 → Bool × σ2)
    (s1 : σ1) (s2 : σ2) :
    (IntersectSphere soup c r (stopTrack cbS) tree (s1, 0, false, 0)).2.2.2.2 = 0 ∧
    (IntersectLine soup L (stopTrack cbL) tree (s2, 0, false, 0)).2.2.2.2 = 0 ∧
    ((∀ h s, (cbS h s).1 = false) →
      (IntersectSphere soup c r (countCb cbS) tree (s1, 0)).2.2 =
        (if (sphereHits soup tree c r).isEmpty then 0 else 1)) ∧
    ((∀ h s, (cbL h s).1 = false) →
      (IntersectLine soup L (countCb cbL) tree (s2, 0)).2.2 =
        (if (lineHits soup tree L).isEmpty then 0 else 1)) := by
  refine ⟨?_, ?_, ?_, ?_⟩
  · rw [interSphere_eq_feed, feed_stopTrack]
  · rw [interLine_eq_feed, feed_stopTrack]
  · intro hstopS
    rw [interSphere_eq_feed, feed_count cbS hstopS, sphereHits_eq]
  · intro hstopL
    rw [interLine_eq_feed, feed_count cbL hstopL, lineHits_eq]

/-- **C6.** Found/not-found signalling: on a covering tree,
`IntersectLineNearest` returns `some` (a populated output slot) exactly
when some soup polygon intersects the segment, and `none` otherwise; a
miss is likewise signalled in the callback query by an empty result run
(zero callback invocations). -/
theorem nearest_found_iff_any_hit (soup : Soup) (tree : KDNode) (L : Seg)
    (hcov : covers soup (fun _ => True) tree) :
    (IntersectLineNearest soup tree L).isSome = anyPolyHit soup L ∧
    (anyPolyHit soup L = false → lineHits soup tree L = []) := by
  have hfwd : ∀ b, IntersectLineNearest soup tree L = some b →
      anyPolyHit soup L = true := by
    intro b hb
    rw [IntersectLineNearest] at hb
    rcases nearAux_sound soup L tree none (goodOpt_none soup L) b hb with h | h
    · cases h
    · obtain ⟨-, hs⟩ := mem_lineHitsOf soup L tree h
      exact (anyPolyHit_iff soup L).mpr
        ⟨b.poly, b.t, segTriHit_poly_lt soup L _ _ hs, hs⟩
  constructor
  · rcases hn : IntersectLineNearest soup tree L with _ | b
    · rcases ha : anyPolyHit soup L with _ | _
      · rfl
      · obtain ⟨i, t', hlen, hs⟩ := (anyPolyHit_iff soup L).mp ha
        obtain ⟨bb, hbb, -⟩ := nearAux_complete soup L i t' hs hlen tree _ none
          hcov (goodOpt_none soup L) trivial
        rw [IntersectLineNearest] at hn
        rw [hn] at hbb
        cases hbb
    · rw [hfwd b hn]
      rfl
  · intro ha
    rw [List.eq_nil_iff_forall_not_mem]
    intro h0 hh0
    rw [lineHits_eq] at hh0
    obtain ⟨-, hs0⟩ := mem_lineHitsOf soup L tree hh0
    rw [(anyPolyHit_iff soup L).mpr
      ⟨h0.poly, h0.t, segTriHit_poly_lt soup L _ _ hs0, hs0⟩] at ha
    cases ha

/-- **C8.** Malformed geometry: a degenerate polygon is never reported by
any of the three queries — no callback invocation carries it and it is
never the nearest hit — with no failure signalled. -/
theorem malformed_polygon_never_reported (soup : Soup) (tree : KDNode)
    (c : Vec3) (r : ℚ) (L : Seg) (i : Nat)
    (hdeg : (getTri soup i).degenerate) :
    i ∉ (sphereHits soup tree c r).map SphereHit.poly ∧
    i ∉ (lineHits soup tree L).map LineHit.poly ∧
    ((IntersectLineNearest soup tree L).all fun b => b.poly != i) = true := by
  refine ⟨?_, ?_, ?_⟩
  · intro hmem
    obtain ⟨hS, hhS, hpoly⟩ := List.mem_map.mp hmem
    rw [sphereHits_eq] at hhS
    have := (mem_sphereHitsOf soup c r tree hhS).2
    rw [hpoly, triSphereHit_degenerate _ _ _ hdeg] at this
    cases this
  · intro hmem
    obtain ⟨hL, hhL, hpoly⟩ := List.mem_map.mp hmem
    rw [lineHits_eq] at hhL
    have := (mem_lineHitsOf soup L tree hhL).2
    rw [hpoly, segTriHit_degenerate _ _ hdeg] at this
    cases this
  · rcases hn : IntersectLineNearest soup tree L with _ | b
    · rfl
    · rw [IntersectLineNearest] at hn
      rcases nearAux_sound soup L tree none (goodOpt_none soup L) b hn with h | h
      · cases h
      · have hs := (mem_lineHitsOf soup L tree h).2
        have hne : b.poly ≠ i := by
          intro he
          rw [he, segTriHit_degenerate _ _ hdeg] at hs
          cases hs
        simp only [Option.all_some]
        exact bne_iff_ne.mpr hne

/-!
## Concrete witness configuration

A two-polygon soup (parallel right triangles in the planes `z = 0` and
`z = 1`), a one-leaf tree listing both, a sphere touching both and a
vertical segment crossing both; plus a soup whose first polygon is
degenerate.
-/

def T0 : Tri := ⟨⟨0, 0, 0⟩, ⟨4, 0, 0⟩, ⟨0, 4, 0⟩⟩

def T1 : Tri := ⟨⟨0, 0, 1⟩, ⟨4, 0, 1⟩, ⟨0, 4, 1⟩⟩

def TD : Tri := ⟨⟨0, 0, 0⟩, ⟨1, 1, 1⟩, ⟨2, 2, 2⟩⟩

def soupW : Soup := [T0, T1]

def soupD : Soup := [TD, T0]

def treeW : KDNode := .leaf [0, 1]

def segW : Seg := ⟨⟨1, 1, 2⟩, ⟨1, 1, -2⟩⟩

def cW : Vec3 := ⟨1, 1, 0⟩

/-- A callback that stops after its first invocation (sphere form). -/
def stopCbS : SphereHit → Unit → Bool × Unit := fun _ s => (false, s)

/-- A callback that stops after its first invocation (line form). -/
def stopCbL : LineHit → Unit → Bool × Unit := fun _ s => (false, s)

theorem coversW : covers soupW (fun _ => True) treeW := by
  intro i x hi _ _
  have : i < 2 := by simpa [soupW] using hi
  interval_cases i <;> simp

theorem coversD : covers soupD (fun _ => True) treeW := by
  intro i x hi _ _
  have : i < 2 := by simpa [soupD] using hi
  interval_cases i <;> simp

/-- Witness for C2: both polygons meet the sphere and the segment; polygon
`0` is reported by both callback queries. -/
theorem kd_queries_no_false_negatives_witness :
    0 ∈ (sphereHits soupW treeW cW 2).map SphereHit.poly ∧
    0 ∈ (lineHits soupW treeW segW).map LineHit.poly :=
  kd_queries_no_false_negatives soupW treeW cW 2 segW 0 (1/2) coversW
    (by norm_num)
    (by norm_num [triSphereHit, getTri, soupW, T0, cW, Tri.degenerate,
      Tri.normalv, vcross, Tri.e1, Tri.e2, vsub, vadd, vsmul, vdot, sqDist,
      sphereCandidates, closestOnSeg, faceCandidate, gramDet, baryS, baryT,
      clamp01, List.any])
    (by norm_num [segTriHit, getTri, soupW, T0, segW, Tri.normalv, vcross,
      Tri.e1, Tri.e2, vsub, vadd, vsmul, vdot, hitT, Seg.ptAt, Seg.dir,
      gramDet, baryS, baryT])

set_option maxHeartbeats 2000000 in
/-- Witness for C3 at concrete reported results of all three queries. -/
theorem kd_queries_no_false_positives_witness :
    triSphereHit (getTri soupW (⟨0, ⟨1, 0, 0⟩, ⟨0, 0, 16⟩, 3⟩ : SphereHit).poly)
        cW 2 = true ∧
    segTriHit (getTri soupW (⟨0, 1/2, ⟨1, 1, 0⟩, ⟨0, 0, 16⟩⟩ : LineHit).poly)
        segW = some (⟨0, 1/2, ⟨1, 1, 0⟩, ⟨0, 0, 16⟩⟩ : LineHit).t ∧
    segTriHit (getTri soupW (⟨1, 1/4, ⟨1, 1, 1⟩, ⟨0, 0, 16⟩⟩ : LineHit).poly)
        segW = some (⟨1, 1/4, ⟨1, 1, 1⟩, ⟨0, 0, 16⟩⟩ : LineHit).t :=
  kd_queries_no_false_positives soupW treeW cW 2 segW
    ⟨0, ⟨1, 0, 0⟩, ⟨0, 0, 16⟩, 3⟩ ⟨0, 1/2, ⟨1, 1, 0⟩, ⟨0, 0, 16⟩⟩
    ⟨1, 1/4, ⟨1, 1, 1⟩, ⟨0, 0, 16⟩⟩
    (by rw [sphereHits_eq]
        norm_num [sphereHitsOf, treeW, leafSphere, mkSphereHit, contactPoint,
          triSphereHit, getTri, soupW, T0, T1, cW, Tri.degenerate, Tri.normalv,
          vcross, Tri.e1, Tri.e2, vsub, vadd, vsmul, vdot, sqDist,
          sphereCandidates, closestOnSeg, faceCandidate, gramDet, baryS, baryT,
          clamp01, List.any])
    (by rw [lineHits_eq]
        norm_num [lineHitsOf, treeW, leafLine, mkLineHit, segTriHit, getTri,
          soupW, T0, T1, segW, Tri.normalv, vcross, Tri.e1, Tri.e2, vsub, vadd,
          vsmul, vdot, hitT, Seg.ptAt, Seg.dir, gramDet, baryS, baryT])
    (by have h0 : segTriHit (getTri soupW 0) segW = some (1/2) := by
          norm_num [segTriHit, getTri, soupW, T0, segW, Tri.normalv, vcross,
            Tri.e1, Tri.e2, vsub, vadd, vsmul, vdot, hitT, Seg.ptAt, Seg.dir,
            gramDet, baryS, baryT]
        have h1 : segTriHit (getTri soupW 1) segW = some (1/4) := by
          norm_num [segTriHit, getTri, soupW, T1, segW, Tri.normalv, vcross,
            Tri.e1, Tri.e2, vsub, vadd, vsmul, vdot, hitT, Seg.ptAt, Seg.dir,
            gramDet, baryS, baryT]
        rw [IntersectLineNearest]
        show List.foldl (updateBest soupW segW) none [0, 1] = _
        rw [List.foldl_cons, List.foldl_cons, List.foldl_nil]
        simp only [updateBest, h0, h1]
        norm_num [mkLineHit, segW, Seg.ptAt, Seg.dir, vadd, vsmul, vsub, getTri,
          soupW, T1, Tri.normalv, vcross, Tri.e1, Tri.e2])

/-- Witness for C4 on the two-hit configuration. -/
theorem nearest_is_min_of_line_hits_witness :
    (IntersectLineNearest soupW treeW segW).map LineHit.t =
      minT ((lineHits soupW treeW segW).map LineHit.t) :=
  nearest_is_min_of_line_hits soupW treeW segW coversW

/-- Witness for C5: on a configuration where two polygons intersect both
query shapes, the post-stop invocation counters are zero and the always-stop
callbacks are counted exactly once. -/
theorem callback_stop_never_reinvoked_witness :
    (IntersectSphere soupW cW 2 (stopTrack stopCbS) treeW ((), 0, false, 0)).2.2.2.2 = 0 ∧
    (IntersectLine soupW segW (stopTrack stopCbL) treeW ((), 0, false, 0)).2.2.2.2 = 0 ∧
    (IntersectSphere soupW cW 2 (countCb stopCbS) treeW ((), 0)).2.2 =
      (if (sphereHits soupW treeW cW 2).isEmpty then 0 else 1) ∧
    (IntersectLine soupW segW (countCb stopCbL) treeW ((), 0)).2.2 =
      (if (lineHits soupW treeW segW).isEmpty then 0 else 1) := by
  obtain ⟨h1, h2, h3, h4⟩ :=
    callback_stop_never_reinvoked soupW treeW cW 2 segW stopCbS stopCbL () ()
  exact ⟨h1, h2, h3 fun _ _ => rfl, h4 fun _ _ => rfl⟩

/-- Witness for C6 on the two-hit configuration. -/
theorem nearest_found_iff_any_hit_witness :
    (IntersectLineNearest soupW treeW segW).isSome = anyPolyHit soupW segW ∧
    (anyPolyHit soupW segW = false → lineHits soupW treeW segW = []) :=
  nearest_found_iff_any_hit soupW treeW segW coversW

/-- Witness for C8: the degenerate polygon `0` of `soupD` is reported by no
query. -/
theorem malformed_polygon_never_reported_witness :
    0 ∉ (sphereHits soupD treeW cW 2).map SphereHit.poly ∧
    0 ∉ (lineHits soupD treeW segW).map LineHit.poly ∧
    ((IntersectLineNearest soupD treeW segW).all fun b => b.poly != 0) = true :=
  malformed_polygon_never_reported soupD treeW cW 2 segW 0
    (by show Tri.normalv _ = _
        ext <;> norm_num [getTri, soupD, TD, Tri.normalv, vcross, Tri.e1,
          Tri.e2, vsub])

end B3
